import Mathlib

/-!
Shallow embedding of the `dunder-magic` repository (three Python files:
`wrappedlist.py`, `squarefunction.py`, `easysubsuper.py`) and proofs of the
frozen claims about it.

Python exceptions are modelled by `PyError`; fallible operations return
`Except PyError _`.  Python's `%` on integers is floor-division remainder,
which is `Int.fmod`, and raises `ZeroDivisionError` on a zero modulus.
-/

/-- Kinds of Python exceptions raised by the code under verification. -/
inductive PyError where
  | typeError
  | valueError
  | indexError
  | zeroDivisionError
  | attributeError
  | syntaxError
deriving DecidableEq, Repr

/-- Python's `a % b` on ints: floor-division remainder (`Int.fmod`), raising
`ZeroDivisionError` when `b = 0`. -/
def pyMod (a b : Int) : Except PyError Int :=
  if b = 0 then .error .zeroDivisionError else .ok (Int.fmod a b)

/-- A Python `slice` object whose components are ints or `None`
(`slice(start, stop, step)`). -/
structure PySlice where
  start : Option Int
  stop : Option Int
  step : Option Int
deriving DecidableEq, Repr

/-! ## Built-in `list` subscription semantics

These model what CPython's built-in `list.__getitem__` / `__setitem__` /
`__delitem__` do, since `WrappedList` delegates to `super()` after wrapping.
-/

/-- Built-in `list` get with an int index: a negative index counts from the
end; out-of-range raises `IndexError`. -/
def pyListGetInt {α : Type} (l : List α) (i : Int) : Except PyError α :=
  let j := if i < 0 then i + l.length else i
  if 0 ≤ j then
    match l.get? j.toNat with
    | some x => .ok x
    | none => .error .indexError
  else .error .indexError

/-- Built-in `list` set with an int index. -/
def pyListSetInt {α : Type} (l : List α) (i : Int) (x : α) : Except PyError (List α) :=
  let j := if i < 0 then i + l.length else i
  if 0 ≤ j ∧ j < l.length then .ok (l.set j.toNat x) else .error .indexError

/-- Built-in `list` delete with an int index. -/
def pyListDelInt {α : Type} (l : List α) (i : Int) : Except PyError (List α) :=
  let j := if i < 0 then i + l.length else i
  if 0 ≤ j ∧ j < l.length then .ok (l.eraseIdx j.toNat) else .error .indexError

/-- CPython's normalisation of one slice bound (`PySlice_Unpack` followed by
`PySlice_AdjustIndices`) for a list of length `n`: `None` bounds get the
direction-dependent defaults, negative bounds count from the end, and
everything is clamped into range. -/
def pyClamp (n : Nat) (step : Int) (v : Option Int) (isStart : Bool) : Int :=
  match v with
  | none =>
    if step < 0 then (if isStart then (n : Int) - 1 else -1)
    else (if isStart then 0 else (n : Int))
  | some x =>
    if x < 0 then
      if x + n < 0 then (if step < 0 then -1 else 0) else x + n
    else if (n : Int) ≤ x then (if step < 0 then (n : Int) - 1 else (n : Int))
    else x

/-- Number of indices selected by a normalised slice (CPython's
`slicelength` computation). -/
def pySliceLen (start stop step : Int) : Nat :=
  if 0 < step then
    if start < stop then ((stop - start - 1) / step).toNat + 1 else 0
  else
    if stop < start then ((start - stop - 1) / (-step)).toNat + 1 else 0

/-- The list of indices a slice selects on a list of length `n`, in selection
order; a zero step raises `ValueError`. -/
def pySliceIndices (n : Nat) (s : PySlice) : Except PyError (List Int) := do
  let step ← match s.step with
    | none => Except.ok 1
    | some st => if st = 0 then Except.error PyError.valueError else Except.ok st
  let start := pyClamp n step s.start true
  let stop := pyClamp n step s.stop false
  .ok ((List.range (pySliceLen start stop step)).map (fun i => start + step * i))

/-- Built-in `list` get with a slice: the selected elements in selection
order.  (The indices produced by `pySliceIndices` are always in range, so the
`filterMap` keeps every selected element.) -/
def pyListGetSlice {α : Type} (l : List α) (s : PySlice) : Except PyError (List α) := do
  let idxs ← pySliceIndices l.length s
  .ok (idxs.filterMap (fun i => l.get? i.toNat))

/-- Built-in `list` delete with a slice: remove the selected positions. -/
def pyListDelSlice {α : Type} (l : List α) (s : PySlice) : Except PyError (List α) := do
  let idxs ← pySliceIndices l.length s
  .ok ((l.enum.filter (fun p => !(idxs.contains (Int.ofNat p.1)))).map Prod.snd)

/-- Built-in `list` set with a slice: a step of `1` (or `None`) splices the
replacement in; an extended slice requires the replacement to have exactly as
many elements as the slice selects, else `ValueError`. -/
def pyListSetSlice {α : Type} (l : List α) (s : PySlice) (v : List α) :
    Except PyError (List α) :=
  let rawStep : Int := match s.step with | none => 1 | some st => st
  if rawStep = 1 then
    let start := pyClamp l.length 1 s.start true
    let stop := max start (pyClamp l.length 1 s.stop false)
    .ok (l.take start.toNat ++ v ++ l.drop stop.toNat)
  else do
    let idxs ← pySliceIndices l.length s
    if v.length = idxs.length then
      .ok (l.enum.map (fun p =>
        match (idxs.zip v).lookup (Int.ofNat p.1) with
        | some y => y
        | none => p.2))
    else .error .valueError

/-! ## `WrappedList` (src/wrappedlist.py) -/

/-- A subscription key for `WrappedList`: an int, a slice, or a value of any
other type.  `other` stands for a key such as a `str` that is neither an
`int` nor a `slice` and has no `start`/`stop` attributes. -/
inductive WKey where
  | int : Int → WKey
  | slice : PySlice → WKey
  | other : WKey
deriving DecidableEq, Repr

/-- A value assigned through `__setitem__`: a single element for an int key
or a sequence of elements for a slice key. -/
inductive WSetVal (α : Type) where
  | scalar : α → WSetVal α
  | seq : List α → WSetVal α

namespace WrappedList

/-- `WrappedList._wrap_int`: `key % length - (0, length)[key < 0]`.  The `%`
raises `ZeroDivisionError` when `length = 0`. -/
def wrap_int (key length : Int) : Except PyError Int :=
  (pyMod key length).map (fun m => m - if key < 0 then length else 0)

/-- `WrappedList._wrap_slice`: wrap `key.start` and `key.stop` with
`_wrap_int`, keep `key.step`.  A `None` bound reaches `None % length`, which
raises `TypeError`. -/
def wrap_slice (s : PySlice) (length : Int) : Except PyError PySlice :=
  match s.start, s.stop with
  | some a, some b =>
    (wrap_int a length).bind (fun wa =>
      (wrap_int b length).map (fun wb => ⟨some wa, some wb, s.step⟩))
  | _, _ => .error .typeError

/-- `WrappedList._wrap_both`: dispatch on the key's type.  A key that is
neither an int nor a slice is passed to `_wrap_slice`, whose access to
`key.start` raises `AttributeError`. -/
def wrap_both (k : WKey) (length : Int) : Except PyError WKey :=
  match k with
  | .int i => (wrap_int i length).map .int
  | .slice s => (wrap_slice s length).map .slice
  | .other => .error .attributeError

/-- `WrappedList.__getitem__`: wrap the key, then delegate to the built-in
`list.__getitem__`; a slice get returns a new `WrappedList` (here: the inner
list, tagged `Sum.inr`).  A key of any other type raises `TypeError`. -/
def getitem {α : Type} (l : List α) (key : WKey) : Except PyError (α ⊕ List α) :=
  match key with
  | .int i =>
    (wrap_int i (l.length : Int)).bind (fun w => (pyListGetInt l w).map Sum.inl)
  | .slice s =>
    (wrap_slice s (l.length : Int)).bind (fun w => (pyListGetSlice l w).map Sum.inr)
  | .other => .error .typeError

/-- `WrappedList.__setitem__`: wrap the key with `_wrap_both`, then delegate
to the built-in `list.__setitem__`.  (Assigning a sequence to an int index
stores the sequence object itself in Python and is outside this model's
element type; assigning a non-iterable to a slice raises `TypeError` as in
Python.  `_wrap_both` never returns an `other` key.) -/
def setitem {α : Type} (l : List α) (k : WKey) (v : WSetVal α) :
    Except PyError (List α) :=
  (wrap_both k (l.length : Int)).bind (fun wk =>
    match wk, v with
    | .int j, .scalar x => pyListSetInt l j x
    | .slice s, .seq xs => pyListSetSlice l s xs
    | _, _ => .error .typeError)

/-- `WrappedList.__delitem__`: wrap the key with `_wrap_both`, then delegate
to the built-in `list.__delitem__`. -/
def delitem {α : Type} (l : List α) (k : WKey) : Except PyError (List α) :=
  (wrap_both k (l.length : Int)).bind (fun wk =>
    match wk with
    | .int j => pyListDelInt l j
    | .slice s => pyListDelSlice l s
    | .other => .error .typeError)

end WrappedList

/-! ## `EasySubSuper` (src/easysubsuper.py)

A class is identified by a `Nat`; a hierarchy assigns every class its MRO
(Python's linearised ancestor list, which starts with the class itself).
-/

/-- A universe of classes, each with its method-resolution order. -/
structure Hierarchy where
  mro : Nat → List Nat

namespace EasySubSuper

/-- `EasySubSuper.__lt__`: `other in cls.__mro__[1:]`. -/
def lt (h : Hierarchy) (cls other : Nat) : Bool :=
  (h.mro cls).tail.contains other

/-- `EasySubSuper.__le__`: `other in cls.__mro__`. -/
def le (h : Hierarchy) (cls other : Nat) : Bool :=
  (h.mro cls).contains other

/-- `EasySubSuper.__gt__`: `cls in other.__mro__[1:]`. -/
def gt (h : Hierarchy) (cls other : Nat) : Bool :=
  (h.mro other).tail.contains cls

/-- `EasySubSuper.__ge__`: `cls in other.__mro__`. -/
def ge (h : Hierarchy) (cls other : Nat) : Bool :=
  (h.mro other).contains cls

end EasySubSuper

/-! ## `SquareFunction` (src/squarefunction.py) -/

/-- Python values passed through the bracket-invocation interface: ints,
strings, `None`, slices (whose three components are arbitrary values) and
tuples. -/
inductive PyVal where
  | int : Int → PyVal
  | str : String → PyVal
  | noneVal : PyVal
  | slice : PyVal → PyVal → PyVal → PyVal
  | tuple : List PyVal → PyVal

/-- `tuplefy`: `obj if isinstance(obj, tuple) else (obj,)`. -/
def tuplefy : PyVal → List PyVal
  | .tuple xs => xs
  | v => [v]

/-- The name/value pair of a keyword marker: `some (start, stop)` when the
value is a slice whose `start` is a string, else `none`. -/
def PyVal.kwargPair : PyVal → Option (String × PyVal)
  | .slice (.str s) stp _ => some (s, stp)
  | _ => none

/-- One invocation of the wrapped function: the positional arguments in
order and the keyword arguments as a name/value list in dict order. -/
structure CallRecord where
  posargs : List PyVal
  kwargs : List (String × PyVal)

namespace SquareFunction

/-- `SquareFunction._is_valid_kwarg`: a slice whose `start` is a string. -/
def is_valid_kwarg (v : PyVal) : Bool :=
  (PyVal.kwargPair v).isSome

/-- The `for arg in riter` loop of `SquareFunction._verify`, walking the
remaining arguments in reverse order.  `swk` is `start_with_kwarg`, `ps` is
`posargs_starts`, `keys` is `kwargs_keys`. -/
def verifyLoop (swk ps : Bool) (keys : List String) : List PyVal → Except PyError Unit
  | [] => .ok ()
  | arg :: rest =>
    match PyVal.kwargPair arg with
    | some (key, _) =>
      if !(swk && !ps) then .error .syntaxError
      else if keys.contains key then .error .syntaxError
      else verifyLoop swk ps (keys ++ [key]) rest
    | none => verifyLoop swk true keys rest

/-- `SquareFunction._verify`: walk the argument tuple in reverse and raise
`SyntaxError` when positional and keyword arguments are mixed up or a
keyword is repeated. -/
def verify (pkargs : List PyVal) : Except PyError Unit :=
  match pkargs.reverse with
  | [] => .ok ()
  | first :: rest =>
    match PyVal.kwargPair first with
    | some (key, _) => verifyLoop true false [key] rest
    | none => verifyLoop false false [] rest

/-- One Python dict assignment `d[key] = v`: an existing key keeps its
position and gets the new value, a new key is appended. -/
def dictAssign (d : List (String × PyVal)) (key : String) (v : PyVal) :
    List (String × PyVal) :=
  if d.any (fun p => p.1 == key) then
    d.map (fun p => if p.1 == key then (key, v) else p)
  else d ++ [(key, v)]

/-- One iteration of the `for arg in pkargs` loop of `SquareFunction._split`:
a keyword marker is assigned into the kwargs dict, anything else is appended
to the positional list. -/
def splitStep (acc : List PyVal × List (String × PyVal)) (arg : PyVal) :
    List PyVal × List (String × PyVal) :=
  match PyVal.kwargPair arg with
  | some (key, stp) => (acc.1, dictAssign acc.2 key stp)
  | none => (acc.1 ++ [arg], acc.2)

/-- `SquareFunction._split`: split the argument tuple into positional
arguments and a keyword dict (`kwargs[arg.start] = arg.stop`). -/
def split (pkargs : List PyVal) : List PyVal × List (String × PyVal) :=
  pkargs.foldl splitStep ([], [])

/-- The tail of `SquareFunction.__getitem__`: split the arguments, invoke
the wrapped function `f`, discard its result and return `None`.  The first
component records the invocations made of `f`. -/
def invoke (f : CallRecord → PyVal) (pkargs : List PyVal) :
    List CallRecord × Except PyError PyVal :=
  let pk := split pkargs
  let record : CallRecord := ⟨pk.1, pk.2⟩
  let _ := f record
  ([record], .ok PyVal.noneVal)

/-- `SquareFunction.__getitem__`: tuplefy the subscript, verify it unless
`no_verify`, then split and invoke the wrapped function. -/
def getitem (f : CallRecord → PyVal) (no_verify : Bool) (poskwargs : PyVal) :
    List CallRecord × Except PyError PyVal :=
  let pkargs := tuplefy poskwargs
  if no_verify then
    invoke f pkargs
  else
    match verify pkargs with
    | .error e => ([], .error e)
    | .ok _ => invoke f pkargs

/-- `SquareFunction.__call__`: raise `SyntaxError` unconditionally, never
touching the wrapped function. -/
def call (f : CallRecord → PyVal) (args : List PyVal)
    (kwargs : List (String × PyVal)) : List CallRecord × Except PyError PyVal :=
  ([], .error .syntaxError)

end SquareFunction

namespace SquareMethod

/-- `SquareMethod.__getitem__`: prepend the bound object to the tuplefied
arguments and call the underlying `SquareFunction.__getitem__`, discarding
its result (the method body returns `None` implicitly). -/
def getitem (f : CallRecord → PyVal) (no_verify : Bool) (selfObj : PyVal)
    (poskwargs : PyVal) : List CallRecord × Except PyError PyVal :=
  let inner := SquareFunction.getitem f no_verify (.tuple (selfObj :: tuplefy poskwargs))
  (inner.1, inner.2.map (fun _ => PyVal.noneVal))

end SquareMethod

/-! ## Claim-side predicates and spec-side definitions -/

/-- The spec's wording of the modulo rule: "`key % length`, mapped to
negative range when the original key was negative".  To be compared with the
source's `WrappedList._wrap_int`. -/
def specModuloWrap (key n : Int) : Int :=
  if key < 0 then key % n - n else key % n

/-- The keyword names appearing in an argument tuple, in order. -/
def kwNames (l : List PyVal) : List String :=
  l.filterMap (fun v => (PyVal.kwargPair v).map Prod.fst)

/-- The argument tuple contains a positional (non-keyword-marker) element
somewhere after a keyword marker. -/
def posAfterKw (l : List PyVal) : Prop :=
  ∃ x y, List.Sublist [x, y] l ∧ SquareFunction.is_valid_kwarg x = true ∧
    SquareFunction.is_valid_kwarg y = false

/-- A malformed argument tuple in the sense of claim C3: a positional
element after a keyword marker, or a repeated keyword name. -/
def malformedArgs (l : List PyVal) : Prop :=
  posAfterKw l ∨ ¬ (kwNames l).Nodup

/-- A well-formed argument tuple: all positional elements precede all
keyword markers, and the keyword names are pairwise distinct. -/
def wellFormedArgs (l : List PyVal) : Prop :=
  ((l.dropWhile (fun v => !SquareFunction.is_valid_kwarg v)).all
      SquareFunction.is_valid_kwarg = true)
  ∧ (kwNames l).Nodup

/-- A concrete class hierarchy (`0` plays `object`, `1` a class `A`, `2` a
subclass `B` of `A`), used to instantiate the comparison theorems. -/
def sampleHierarchy : Hierarchy :=
  ⟨fun c => if c = 2 then [2, 1, 0] else if c = 1 then [1, 0] else [0]⟩

/-! ## Helper lemmas -/

/-- For a positive modulus, Python's `%` is `Int.emod`. -/
theorem pyMod_pos (a n : Int) (h : 0 < n) : pyMod a n = .ok (a % n) := by
  unfold pyMod
  rw [if_neg (by omega), Int.fmod_eq_emod a (le_of_lt h)]

/-- `_wrap_int` on a positive length, written with `Int.emod`. -/
theorem wrap_int_pos (a n : Int) (h : 0 < n) :
    WrappedList.wrap_int a n = .ok (a % n - if a < 0 then n else 0) := by
  unfold WrappedList.wrap_int
  rw [pyMod_pos a n h]
  rfl

/-- `_wrap_int` on a positive length computes exactly the spec's modulo
rule. -/
theorem wrap_int_eq_spec (a n : Int) (h : 0 < n) :
    WrappedList.wrap_int a n = .ok (specModuloWrap a n) := by
  rw [wrap_int_pos a n h]
  unfold specModuloWrap
  by_cases hk : a < 0
  · rw [if_pos hk, if_pos hk]
  · rw [if_neg hk, if_neg hk, sub_zero]

/-- Built-in int get is unchanged by shifting an in-range nonnegative index
down by the length (the negative-index convention). -/
theorem pyListGetInt_shift {α : Type} (l : List α) (x : Int)
    (h0 : 0 ≤ x) (h1 : x < (l.length : Int)) :
    pyListGetInt l (x - (l.length : Int)) = pyListGetInt l x := by
  simp only [pyListGetInt]
  rw [if_pos (by omega : x - (l.length : Int) < 0), if_neg (by omega : ¬ x < 0),
    sub_add_cancel]

/-- On a nonempty list, `WrappedList.__getitem__` with an int key reads the
element at `key % length`. -/
theorem getitem_int_emod {α : Type} (l : List α) (hl : 0 < l.length) (i : Int) :
    WrappedList.getitem l (.int i) =
      (pyListGetInt l (i % (l.length : Int))).map Sum.inl := by
  have hn : (0 : Int) < (l.length : Int) := by exact_mod_cast hl
  simp only [WrappedList.getitem]
  rw [wrap_int_pos i _ hn]
  simp only [Except.bind]
  by_cases hk : i < 0
  · rw [if_pos hk,
      pyListGetInt_shift l (i % (l.length : Int)) (Int.emod_nonneg i (by omega))
        (Int.emod_lt_of_pos i hn)]
  · rw [if_neg hk, sub_zero]

/-! ## Claims about `WrappedList` integer indexing -/

/-- C7: for every integer key and positive length `n`, the wrapped index is
`key % n` for a nonnegative key and `key % n - n` for a negative key, and it
is always a valid index for a list of length `n` (it lies in `[-n, n)`). -/
theorem wrappedList_wrap_int_mod (key n : Int) (h : 0 < n) :
    WrappedList.wrap_int key n =
      .ok (if 0 ≤ key then key % n else key % n - n) ∧
    -n ≤ (if 0 ≤ key then key % n else key % n - n) ∧
    (if 0 ≤ key then key % n else key % n - n) < n := by
  have h1 : 0 ≤ key % n := Int.emod_nonneg key (by omega)
  have h2 : key % n < n := Int.emod_lt_of_pos key h
  refine ⟨?_, ?_, ?_⟩
  · rw [wrap_int_pos key n h]
    by_cases hk : key < 0
    · rw [if_pos hk, if_neg (by omega)]
    · rw [if_neg hk, if_pos (by omega), sub_zero]
  · by_cases hk : 0 ≤ key
    · rw [if_pos hk]; omega
    · rw [if_neg hk]; omega
  · by_cases hk : 0 ≤ key
    · rw [if_pos hk]; omega
    · rw [if_neg hk]; omega

/-- Witness for C7 at `key = -7`, `n = 3`. -/
theorem wrappedList_wrap_int_mod_witness :
    WrappedList.wrap_int (-7) 3 =
      .ok (if 0 ≤ (-7 : Int) then (-7 : Int) % 3 else (-7 : Int) % 3 - 3) ∧
    -3 ≤ (if 0 ≤ (-7 : Int) then (-7 : Int) % 3 else (-7 : Int) % 3 - 3) ∧
    (if 0 ≤ (-7 : Int) then (-7 : Int) % 3 else (-7 : Int) % 3 - 3) < 3 :=
  wrappedList_wrap_int_mod (-7) 3 (by decide)

/-- C1: on a list of positive length `n`, getting at a valid index `i`
(negative indices included) and at `i + k * n` return the same element, for
every integer `k`. -/
theorem wrappedList_getitem_periodic {α : Type} (l : List α) (hl : 0 < l.length)
    (i k : Int) (hi : -(l.length : Int) ≤ i ∧ i < (l.length : Int)) :
    WrappedList.getitem l (.int (i + k * (l.length : Int))) =
      WrappedList.getitem l (.int i) := by
  rw [getitem_int_emod l hl, getitem_int_emod l hl, Int.add_mul_emod_self]

/-- Witness for C1 on `[10, 20, 30]` with `i = -2`, `k = 3`. -/
theorem wrappedList_getitem_periodic_witness :
    WrappedList.getitem [10, 20, 30]
        (.int (-2 + 3 * ((([10, 20, 30] : List Int).length : Int)))) =
      WrappedList.getitem ([10, 20, 30] : List Int) (.int (-2)) :=
  wrappedList_getitem_periodic [10, 20, 30] (by decide) (-2) 3 (by decide)

/-- C10: on an empty `WrappedList`, integer-keyed get, set and delete all
raise `ZeroDivisionError` (from `key % 0`), not `IndexError`. -/
theorem wrappedList_empty_zero_division (α : Type) (key : Int) (v : WSetVal α) :
    WrappedList.getitem ([] : List α) (.int key) = .error .zeroDivisionError ∧
    WrappedList.setitem ([] : List α) (.int key) v = .error .zeroDivisionError ∧
    WrappedList.delitem ([] : List α) (.int key) = .error .zeroDivisionError :=
  ⟨rfl, rfl, rfl⟩

/-! ## Claim C5: non-int, non-slice keys -/

/-- C5 counterexample: on a `WrappedList` of positive length, `__setitem__`
with a key that is neither an int nor a slice raises `AttributeError`
(`_wrap_slice` reads `key.start`), not `TypeError` as the claim states. -/
theorem wrappedList_setitem_other_counterexample :
    WrappedList.setitem ([0] : List Int) .other (.scalar 1) =
      .error .attributeError ∧
    PyError.attributeError ≠ PyError.typeError :=
  ⟨rfl, by decide⟩

/-- C5 amended: a get with a key that is neither an int nor a slice raises
`TypeError`, while a set or delete with such a key raises `AttributeError`
(from accessing `.start` on the key inside `_wrap_slice`). -/
theorem wrappedList_invalid_key_errors (α : Type) (l : List α) (v : WSetVal α) :
    WrappedList.getitem l .other = .error .typeError ∧
    WrappedList.setitem l .other v = .error .attributeError ∧
    WrappedList.delitem l .other = .error .attributeError :=
  ⟨rfl, rfl, rfl⟩

/-! ## Claim C4: `EasySubSuper` comparisons -/

/-- C4: for classes with metaclass `EasySubSuper` (with the well-formedness
Python guarantees: a class's MRO starts with the class itself and has no
duplicates), `a < b` iff `b` is in `a`'s MRO excluding `a` itself, `a <= b`
iff `a < b` or `a = b`, and `>` / `>=` are the mirror queries. -/
theorem easySubSuper_comparisons (h : Hierarchy) (a b : Nat) (ta : List Nat)
    (hwf : h.mro a = a :: ta) (hnd : a ∉ ta) :
    (EasySubSuper.lt h a b = true ↔ (b ∈ h.mro a ∧ b ≠ a)) ∧
    (EasySubSuper.le h a b = true ↔ (EasySubSuper.lt h a b = true ∨ a = b)) ∧
    EasySubSuper.gt h a b = EasySubSuper.lt h b a ∧
    EasySubSuper.ge h a b = EasySubSuper.le h b a := by
  refine ⟨?_, ?_, rfl, rfl⟩
  · unfold EasySubSuper.lt
    rw [hwf]
    simp only [List.tail_cons, List.contains, List.elem_eq_mem, decide_eq_true_eq]
    constructor
    · intro hb
      exact ⟨List.mem_cons_of_mem _ hb, fun hba => hnd (hba ▸ hb)⟩
    · rintro ⟨hb, hne⟩
      rcases List.mem_cons.mp hb with h1 | h1
      · exact absurd h1 hne
      · exact h1
  · unfold EasySubSuper.le EasySubSuper.lt
    rw [hwf]
    simp only [List.tail_cons, List.contains, List.elem_eq_mem, decide_eq_true_eq,
      List.mem_cons]
    constructor
    · rintro (rfl | h1)
      · right; rfl
      · left; exact h1
    · rintro (h1 | rfl)
      · right; exact h1
      · left; rfl

/-- Witness for C4 in `sampleHierarchy` at `a = 2`, `b = 1`. -/
theorem easySubSuper_comparisons_witness :
    (EasySubSuper.lt sampleHierarchy 2 1 = true ↔
      (1 ∈ sampleHierarchy.mro 2 ∧ 1 ≠ 2)) ∧
    (EasySubSuper.le sampleHierarchy 2 1 = true ↔
      (EasySubSuper.lt sampleHierarchy 2 1 = true ∨ 2 = 1)) ∧
    EasySubSuper.gt sampleHierarchy 2 1 = EasySubSuper.lt sampleHierarchy 1 2 ∧
    EasySubSuper.ge sampleHierarchy 2 1 = EasySubSuper.le sampleHierarchy 1 2 :=
  easySubSuper_comparisons sampleHierarchy 2 1 [1, 0] rfl (by decide)

/-! ## Claim C8: calling a `SquareFunction` with parentheses -/

/-- C8: invoking a `SquareFunction` with call syntax raises `SyntaxError`
for every combination of arguments, and the wrapped function is never
invoked (the call record list is empty). -/
theorem squareFunction_call_raises (f : CallRecord → PyVal) (args : List PyVal)
    (kwargs : List (String × PyVal)) :
    SquareFunction.call f args kwargs = ([], .error .syntaxError) := rfl

/-! ## Claim C6: slice operations -/

/-- C6 counterexample: on a `WrappedList` of positive length, a slice key
with a `None` bound (here `l[:0]`, i.e. `slice(None, 0, None)`) makes the
get raise `TypeError` (from `None % length` inside `_wrap_slice`), whereas
the built-in list operation on the same slice succeeds — so not every slice
key is wrapped and delegated. -/
theorem wrappedList_slice_none_counterexample :
    WrappedList.getitem ([0] : List Int)
        (.slice ⟨Option.none, some 0, Option.none⟩) = .error .typeError ∧
    pyListGetSlice ([0] : List Int) ⟨Option.none, some 0, Option.none⟩ =
      .ok [] := by
  constructor
  · rfl
  · rfl

/-- C6 amended: restricted to slice keys whose `start` and `stop` are both
integers (a `None` bound raises `TypeError` instead), slice get, assignment
and deletion on a `WrappedList` of positive length wrap `start` and `stop`
by the modulo rule and then behave exactly as the built-in list operation on
the resulting in-range slice, with the step unchanged. -/
theorem wrappedList_slice_ops_delegate {α : Type} (l : List α)
    (hl : 0 < l.length) (a b : Int) (st : Option Int) (xs : List α) :
    WrappedList.getitem l (.slice ⟨some a, some b, st⟩) =
      (pyListGetSlice l ⟨some (specModuloWrap a (l.length : Int)),
        some (specModuloWrap b (l.length : Int)), st⟩).map Sum.inr ∧
    WrappedList.setitem l (.slice ⟨some a, some b, st⟩) (.seq xs) =
      pyListSetSlice l ⟨some (specModuloWrap a (l.length : Int)),
        some (specModuloWrap b (l.length : Int)), st⟩ xs ∧
    WrappedList.delitem l (.slice ⟨some a, some b, st⟩) =
      pyListDelSlice l ⟨some (specModuloWrap a (l.length : Int)),
        some (specModuloWrap b (l.length : Int)), st⟩ := by
  have hn : (0 : Int) < (l.length : Int) := by exact_mod_cast hl
  have hw : WrappedList.wrap_slice ⟨some a, some b, st⟩ (l.length : Int) =
      .ok ⟨some (specModuloWrap a (l.length : Int)),
        some (specModuloWrap b (l.length : Int)), st⟩ := by
    simp only [WrappedList.wrap_slice]
    rw [wrap_int_eq_spec a _ hn]
    simp only [Except.bind]
    rw [wrap_int_eq_spec b _ hn]
    rfl
  refine ⟨?_, ?_, ?_⟩
  · simp only [WrappedList.getitem, hw, Except.bind]
  · simp only [WrappedList.setitem, WrappedList.wrap_both, hw, Except.map,
      Except.bind]
  · simp only [WrappedList.delitem, WrappedList.wrap_both, hw, Except.map,
      Except.bind]

/-- Witness for C6 (amended) on `[0, 1, 2]` with the slice `-1:5:2` and the
replacement `[7, 8]`. -/
theorem wrappedList_slice_ops_delegate_witness :
    WrappedList.getitem ([0, 1, 2] : List Int) (.slice ⟨some (-1), some 5, some 2⟩) =
      (pyListGetSlice ([0, 1, 2] : List Int)
        ⟨some (specModuloWrap (-1) ((([0, 1, 2] : List Int).length : Int))),
         some (specModuloWrap 5 ((([0, 1, 2] : List Int).length : Int))), some 2⟩).map
        Sum.inr ∧
    WrappedList.setitem ([0, 1, 2] : List Int) (.slice ⟨some (-1), some 5, some 2⟩)
        (.seq [7, 8]) =
      pyListSetSlice ([0, 1, 2] : List Int)
        ⟨some (specModuloWrap (-1) ((([0, 1, 2] : List Int).length : Int))),
         some (specModuloWrap 5 ((([0, 1, 2] : List Int).length : Int))), some 2⟩
        [7, 8] ∧
    WrappedList.delitem ([0, 1, 2] : List Int) (.slice ⟨some (-1), some 5, some 2⟩) =
      pyListDelSlice ([0, 1, 2] : List Int)
        ⟨some (specModuloWrap (-1) ((([0, 1, 2] : List Int).length : Int))),
         some (specModuloWrap 5 ((([0, 1, 2] : List Int).length : Int))), some 2⟩ :=
  wrappedList_slice_ops_delegate [0, 1, 2] (by decide) (-1) 5 (some 2) [7, 8]

/-! ## Claim C9: subscription discards the wrapped function's result -/

/-- The verification loop either succeeds or raises `SyntaxError`. -/
theorem verifyLoop_ok_or_err (l : List PyVal) : ∀ (swk ps : Bool) (keys : List String),
    SquareFunction.verifyLoop swk ps keys l = .ok () ∨
    SquareFunction.verifyLoop swk ps keys l = .error .syntaxError := by
  induction l with
  | nil => intro swk ps keys; left; rfl
  | cons a t ih =>
    intro swk ps keys
    cases hv : PyVal.kwargPair a with
    | some p =>
      obtain ⟨key, stp⟩ := p
      simp only [SquareFunction.verifyLoop, hv]
      by_cases h1 : (!(swk && !ps)) = true
      · rw [if_pos h1]; right; rfl
      · rw [if_neg h1]
        by_cases h2 : keys.contains key = true
        · rw [if_pos h2]; right; rfl
        · rw [if_neg h2]; exact ih swk ps (keys ++ [key])
    | none =>
      simp only [SquareFunction.verifyLoop, hv]
      exact ih swk true keys

/-- `_verify` either succeeds or raises `SyntaxError`. -/
theorem verify_ok_or_err (l : List PyVal) :
    SquareFunction.verify l = .ok () ∨
    SquareFunction.verify l = .error .syntaxError := by
  cases hr : l.reverse with
  | nil => left; simp only [SquareFunction.verify, hr]
  | cons first rest =>
    cases hv : PyVal.kwargPair first with
    | some p =>
      obtain ⟨key, stp⟩ := p
      simp only [SquareFunction.verify, hr, hv]
      exact verifyLoop_ok_or_err rest true false [key]
    | none =>
      simp only [SquareFunction.verify, hr, hv]
      exact verifyLoop_ok_or_err rest false false []

/-- C9: for every `SquareFunction` and `SquareMethod` and every bracket
argument, subscription either raises or returns `None`; the wrapped
function's return value is discarded and the outcome does not depend on it
at all. -/
theorem square_getitem_returns_none (f g : CallRecord → PyVal) (nv : Bool)
    (s a : PyVal) :
    ((SquareFunction.getitem f nv a).2 = .ok PyVal.noneVal ∨
      (SquareFunction.getitem f nv a).2 = .error .syntaxError) ∧
    SquareFunction.getitem f nv a = SquareFunction.getitem g nv a ∧
    ((SquareMethod.getitem f nv s a).2 = .ok PyVal.noneVal ∨
      (SquareMethod.getitem f nv s a).2 = .error .syntaxError) := by
  have hfun : ∀ (f' : CallRecord → PyVal) (b : PyVal),
      (SquareFunction.getitem f' nv b).2 = .ok PyVal.noneVal ∨
      (SquareFunction.getitem f' nv b).2 = .error .syntaxError := by
    intro f' b
    rw [SquareFunction.getitem]
    cases nv with
    | true => left; rfl
    | false =>
      rcases verify_ok_or_err (tuplefy b) with h | h
      · rw [h]; left; rfl
      · rw [h]; right; rfl
  refine ⟨hfun f a, rfl, ?_⟩
  rw [SquareMethod.getitem]
  rcases hfun f (.tuple (s :: tuplefy a)) with h | h
  · rw [h]; left; rfl
  · rw [h]; right; rfl

/-! ## Characterising `_verify` (claims C2 and C3) -/

/-- A value with a keyword pair is a valid keyword marker. -/
theorem valid_of_pair {v : PyVal} {key : String} {stp : PyVal}
    (hv : PyVal.kwargPair v = some (key, stp)) :
    SquareFunction.is_valid_kwarg v = true := by
  unfold SquareFunction.is_valid_kwarg
  rw [hv]
  rfl

/-- A value without a keyword pair is not a valid keyword marker. -/
theorem not_valid_of_none {v : PyVal} (hv : PyVal.kwargPair v = none) :
    SquareFunction.is_valid_kwarg v = false := by
  unfold SquareFunction.is_valid_kwarg
  rw [hv]
  rfl

/-- A value that is not a valid keyword marker has no keyword pair. -/
theorem pair_none_of_invalid {v : PyVal}
    (h : SquareFunction.is_valid_kwarg v = false) :
    PyVal.kwargPair v = none := by
  cases hp : PyVal.kwargPair v with
  | none => rfl
  | some p =>
    exfalso
    unfold SquareFunction.is_valid_kwarg at h
    rw [hp] at h
    exact Bool.noConfusion h

/-- `k.contains` agrees with membership. -/
theorem contains_iff_mem (keys : List String) (k : String) :
    keys.contains k = true ↔ k ∈ keys := by
  simp [List.contains]

/-- A list has an element satisfying `p` strictly before an element
violating `p` exactly when it is not of the shape "violators of `p`, then
satisfiers of `p`". -/
theorem mixed_iff (p : PyVal → Bool) (l : List PyVal) :
    (∃ x y, List.Sublist [x, y] l ∧ p x = true ∧ p y = false) ↔
    ¬ ((l.dropWhile (fun v => !(p v))).all p = true) := by
  induction l with
  | nil => simp
  | cons a t ih =>
    by_cases hp : p a = true
    · have h1 : (a :: t).dropWhile (fun v => !(p v)) = a :: t :=
        List.dropWhile_cons_of_neg (by simp [hp])
      rw [h1, List.all_cons, hp, Bool.true_and]
      constructor
      · rintro ⟨x, y, hs, hx, hy⟩ hall
        have hyt : y ∈ t := by
          cases hs with
          | cons _ h => exact h.subset (by simp)
          | cons₂ _ h => exact List.singleton_sublist.mp h
        have hpy := List.all_eq_true.mp hall y hyt
        rw [hy] at hpy
        exact Bool.noConfusion hpy
      · intro hall
        have hex : ∃ y ∈ t, ¬ (p y = true) := by
          by_contra hc
          push_neg at hc
          exact hall (List.all_eq_true.mpr hc)
        obtain ⟨y, hyt, hy⟩ := hex
        exact ⟨a, y, List.Sublist.cons₂ a (List.singleton_sublist.mpr hyt), hp,
          Bool.eq_false_iff.mpr hy⟩
    · have hp' : p a = false := Bool.eq_false_iff.mpr hp
      have h1 : (a :: t).dropWhile (fun v => !(p v)) = t.dropWhile (fun v => !(p v)) :=
        List.dropWhile_cons_of_pos (by simp [hp'])
      rw [h1, ← ih]
      constructor
      · rintro ⟨x, y, hs, hx, hy⟩
        cases hs with
        | cons _ h => exact ⟨x, y, h, hx, hy⟩
        | cons₂ _ h =>
          rw [hp'] at hx
          exact Bool.noConfusion hx
      · rintro ⟨x, y, hs, hx, hy⟩
        exact ⟨x, y, List.Sublist.cons a hs, hx, hy⟩

/-- Once `_verify`'s loop has left its kwarg-accepting state (last element
positional, or a positional already seen), it succeeds exactly when no
keyword marker remains. -/
theorem verifyLoop_dead (l : List PyVal) : ∀ (swk ps : Bool) (keys : List String),
    (swk && !ps) = false →
    (SquareFunction.verifyLoop swk ps keys l = .ok () ↔
      l.all (fun v => !SquareFunction.is_valid_kwarg v) = true) := by
  induction l with
  | nil => intro swk ps keys _; simp [SquareFunction.verifyLoop]
  | cons a t ih =>
    intro swk ps keys h
    cases hv : PyVal.kwargPair a with
    | some p =>
      obtain ⟨key, stp⟩ := p
      simp only [SquareFunction.verifyLoop, hv]
      rw [if_pos (by rw [h]; rfl)]
      apply iff_of_false
      · intro hc; exact Except.noConfusion hc
      · intro hall
        have hpa := List.all_eq_true.mp hall a (List.mem_cons_self a t)
        rw [valid_of_pair hv] at hpa
        exact Bool.noConfusion hpa
    | none =>
      have hva := not_valid_of_none hv
      simp only [SquareFunction.verifyLoop, hv]
      rw [ih swk true keys (by simp), List.all_cons, hva]
      simp

/-- `kwNames` distributes over append. -/
theorem kwNames_append (l1 l2 : List PyVal) :
    kwNames (l1 ++ l2) = kwNames l1 ++ kwNames l2 := by
  unfold kwNames
  rw [List.filterMap_append]

/-- `kwNames` of a reversed list. -/
theorem kwNames_reverse (l : List PyVal) :
    kwNames l.reverse = (kwNames l).reverse := by
  unfold kwNames
  rw [List.filterMap_reverse]

/-- `kwNames` of a cons whose head is a keyword marker. -/
theorem kwNames_cons_some {a : PyVal} {key : String} {stp : PyVal}
    (hv : PyVal.kwargPair a = some (key, stp)) (l : List PyVal) :
    kwNames (a :: l) = key :: kwNames l := by
  have hfa : (PyVal.kwargPair a).map Prod.fst = some key := by
    rw [hv]
    rfl
  unfold kwNames
  rw [@List.filterMap_cons_some PyVal String
    (fun v => (PyVal.kwargPair v).map Prod.fst) a l key hfa]

/-- `kwNames` of a cons whose head is not a keyword marker. -/
theorem kwNames_cons_none {a : PyVal} (hv : PyVal.kwargPair a = none)
    (l : List PyVal) : kwNames (a :: l) = kwNames l := by
  unfold kwNames
  rw [List.filterMap_cons_none (by simp [hv])]

/-- A list without keyword markers contributes no keyword names. -/
theorem kwNames_of_all_invalid (l : List PyVal)
    (h : l.all (fun v => !SquareFunction.is_valid_kwarg v) = true) :
    kwNames l = [] := by
  induction l with
  | nil => rfl
  | cons a t ih =>
    rw [List.all_cons, Bool.and_eq_true] at h
    have hv : PyVal.kwargPair a = none :=
      pair_none_of_invalid (by simpa using h.1)
    rw [kwNames_cons_none hv, ih h.2]

/-- In its kwarg-accepting state, `_verify`'s loop succeeds exactly when the
remaining (reversed) arguments are keyword markers followed by positional
elements, the marker names are pairwise distinct, and none of them collides
with the names already collected in `keys`. -/
theorem verifyLoop_accept (l : List PyVal) : ∀ keys : List String,
    (SquareFunction.verifyLoop true false keys l = .ok () ↔
      ((l.dropWhile SquareFunction.is_valid_kwarg).all
          (fun v => !SquareFunction.is_valid_kwarg v) = true ∧
        (kwNames (l.takeWhile SquareFunction.is_valid_kwarg)).Nodup ∧
        ∀ nm ∈ kwNames (l.takeWhile SquareFunction.is_valid_kwarg), nm ∉ keys)) := by
  induction l with
  | nil => intro keys; simp [SquareFunction.verifyLoop, kwNames]
  | cons a t ih =>
    intro keys
    cases hv : PyVal.kwargPair a with
    | none =>
      have hva := not_valid_of_none hv
      simp only [SquareFunction.verifyLoop, hv]
      rw [verifyLoop_dead t true true keys (by rfl),
        List.takeWhile_cons_of_neg (by simp [hva]),
        List.dropWhile_cons_of_neg (by simp [hva]),
        List.all_cons, hva]
      simp [kwNames]
    | some p =>
      obtain ⟨key, stp⟩ := p
      have hva := valid_of_pair hv
      simp only [SquareFunction.verifyLoop, hv]
      rw [if_neg (by simp), List.takeWhile_cons_of_pos hva,
        List.dropWhile_cons_of_pos hva, kwNames_cons_some hv]
      by_cases hk : keys.contains key = true
      · rw [if_pos hk]
        apply iff_of_false
        · intro hc; exact Except.noConfusion hc
        · rintro ⟨_, _, hdisj⟩
          exact hdisj key (List.mem_cons_self _ _) ((contains_iff_mem keys key).mp hk)
      · rw [if_neg hk, ih (keys ++ [key])]
        have hknot : key ∉ keys := fun hmem => hk ((contains_iff_mem keys key).mpr hmem)
        constructor
        · rintro ⟨hc, hnd, hdisj⟩
          refine ⟨hc, ?_, ?_⟩
          · rw [List.nodup_cons]
            refine ⟨fun hkm => ?_, hnd⟩
            exact hdisj key hkm (List.mem_append_right _ (List.mem_singleton.mpr rfl))
          · intro nm hnm
            rcases List.mem_cons.mp hnm with rfl | hnm'
            · exact hknot
            · exact fun hmem => hdisj nm hnm' (List.mem_append_left _ hmem)
        · rintro ⟨hc, hnd, hall⟩
          rw [List.nodup_cons] at hnd
          refine ⟨hc, hnd.2, ?_⟩
          intro nm hnm hmem
          rcases List.mem_append.mp hmem with h1 | h1
          · exact hall nm (List.mem_cons_of_mem _ hnm) h1
          · have hnmkey : nm = key := List.mem_singleton.mp h1
            exact hnd.1 (hnmkey ▸ hnm)

/-- A list is "violators then satisfiers" of `p` exactly when its reverse is
"satisfiers then violators". -/
theorem structure_reverse (p : PyVal → Bool) (r : List PyVal) :
    ((r.reverse.dropWhile (fun v => !(p v))).all p = true) ↔
    ((r.dropWhile p).all (fun v => !(p v)) = true) := by
  rw [← not_iff_not, ← mixed_iff p r.reverse]
  have hfix : (fun v => !(!(p v))) = p := by
    funext v
    simp
  have h2 := mixed_iff (fun v => !(p v)) r
  rw [hfix] at h2
  rw [← h2]
  constructor
  · rintro ⟨x, y, hs, hx, hy⟩
    refine ⟨y, x, ?_, by simp [hy], by simp [hx]⟩
    have hrs := hs.reverse
    rw [List.reverse_reverse] at hrs
    simpa using hrs
  · rintro ⟨x, y, hs, hx, hy⟩
    refine ⟨y, x, ?_, by simpa using hy, by simpa using hx⟩
    have hrs := hs.reverse
    simpa using hrs

/-- `wellFormedArgs` of a reverse, phrased on the reversed list as
`_verify`'s loop sees it. -/
theorem wellFormed_reverse (r : List PyVal) :
    wellFormedArgs r.reverse ↔
      ((r.dropWhile SquareFunction.is_valid_kwarg).all
          (fun v => !SquareFunction.is_valid_kwarg v) = true ∧
        (kwNames (r.takeWhile SquareFunction.is_valid_kwarg)).Nodup) := by
  unfold wellFormedArgs
  rw [structure_reverse SquareFunction.is_valid_kwarg r]
  constructor
  · rintro ⟨h1, h2⟩
    refine ⟨h1, ?_⟩
    have h3 : (kwNames r).Nodup := by
      rw [kwNames_reverse] at h2
      exact List.nodup_reverse.mp h2
    rw [show r = r.takeWhile SquareFunction.is_valid_kwarg ++
        r.dropWhile SquareFunction.is_valid_kwarg from
        (List.takeWhile_append_dropWhile _ _).symm, kwNames_append] at h3
    exact h3.of_append_left
  · rintro ⟨h1, h2⟩
    refine ⟨h1, ?_⟩
    rw [kwNames_reverse, List.nodup_reverse,
      show r = r.takeWhile SquareFunction.is_valid_kwarg ++
        r.dropWhile SquareFunction.is_valid_kwarg from
        (List.takeWhile_append_dropWhile _ _).symm,
      kwNames_append, kwNames_of_all_invalid _ h1, List.append_nil]
    exact h2

/-- `_verify` succeeds exactly on well-formed argument tuples. -/
theorem verify_ok_iff (l : List PyVal) :
    SquareFunction.verify l = .ok () ↔ wellFormedArgs l := by
  cases hr : l.reverse with
  | nil =>
    have hl : l = [] := by
      have h0 := congrArg List.reverse hr
      simpa using h0
    subst hl
    simp [SquareFunction.verify, wellFormedArgs, kwNames]
  | cons first rest =>
    have hl : l = (first :: rest).reverse := by
      rw [← hr, List.reverse_reverse]
    cases hv : PyVal.kwargPair first with
    | some p =>
      obtain ⟨key, stp⟩ := p
      have hva := valid_of_pair hv
      simp only [SquareFunction.verify, hr, hv]
      rw [verifyLoop_accept rest [key], hl, wellFormed_reverse (first :: rest),
        List.takeWhile_cons_of_pos hva, List.dropWhile_cons_of_pos hva,
        kwNames_cons_some hv, List.nodup_cons]
      constructor
      · rintro ⟨hc, hnd, hdisj⟩
        exact ⟨hc, fun hkm => hdisj key hkm (List.mem_singleton.mpr rfl), hnd⟩
      · rintro ⟨hc, hknot, hnd⟩
        refine ⟨hc, hnd, ?_⟩
        intro nm hnm hmem
        exact hknot (List.mem_singleton.mp hmem ▸ hnm)
    | none =>
      have hva := not_valid_of_none hv
      simp only [SquareFunction.verify, hr, hv]
      rw [verifyLoop_dead rest false false [] (by rfl), hl,
        wellFormed_reverse (first :: rest),
        List.takeWhile_cons_of_neg (by simp [hva]),
        List.dropWhile_cons_of_neg (by simp [hva]),
        List.all_cons, hva]
      simp [kwNames]

/-- A tuple is malformed in the sense of C3 exactly when it is not
well-formed. -/
theorem malformed_iff_not_wellFormed (l : List PyVal) :
    malformedArgs l ↔ ¬ wellFormedArgs l := by
  unfold malformedArgs wellFormedArgs posAfterKw
  rw [mixed_iff SquareFunction.is_valid_kwarg l, ← not_and_or]

/-- C3: with verification enabled, subscription raises `SyntaxError` —
before the wrapped function is ever invoked — if and only if the bracket
argument tuple has a positional element after a keyword marker or repeats a
keyword name. -/
theorem squareFunction_verify_iff_malformed (f : CallRecord → PyVal)
    (l : List PyVal) :
    SquareFunction.getitem f false (.tuple l) = ([], .error .syntaxError) ↔
    malformedArgs l := by
  rw [malformed_iff_not_wellFormed, ← verify_ok_iff]
  simp only [SquareFunction.getitem, tuplefy, Bool.false_eq_true, if_false]
  rcases verify_ok_or_err l with h | h
  · constructor
    · intro hc
      exfalso
      simp only [h] at hc
      have hfst := congrArg Prod.fst hc
      simp [SquareFunction.invoke] at hfst
    · intro hc
      exact absurd h hc
  · constructor
    · intro _ hok
      rw [h] at hok
      exact Except.noConfusion hok
    · intro _
      simp only [h]

/-! ## Claim C2: well-formed bracket arguments invoke the function directly -/

/-- Assigning a fresh key into a Python dict appends it. -/
theorem dictAssign_notmem (d : List (String × PyVal)) (key : String) (v : PyVal)
    (h : ∀ p ∈ d, p.1 ≠ key) :
    SquareFunction.dictAssign d key v = d ++ [(key, v)] := by
  unfold SquareFunction.dictAssign
  rw [if_neg]
  intro hc
  rw [List.any_eq_true] at hc
  obtain ⟨p, hp, hpk⟩ := hc
  exact h p hp (by simpa using hpk)

/-- `_split`'s loop over positional elements appends them in order. -/
theorem foldl_splitStep_pos (pos : List PyVal) :
    ∀ acc : List PyVal × List (String × PyVal),
      pos.all (fun v => !SquareFunction.is_valid_kwarg v) = true →
      pos.foldl SquareFunction.splitStep acc = (acc.1 ++ pos, acc.2) := by
  induction pos with
  | nil => intro acc _; simp
  | cons a t ih =>
    intro acc h
    rw [List.all_cons, Bool.and_eq_true] at h
    have hv : PyVal.kwargPair a = none :=
      pair_none_of_invalid (by simpa using h.1)
    rw [List.foldl_cons,
      show SquareFunction.splitStep acc a = (acc.1 ++ [a], acc.2) by
        simp [SquareFunction.splitStep, hv],
      ih _ h.2]
    simp

/-- `_split`'s loop over keyword markers with fresh, pairwise-distinct names
appends their name/value pairs in order. -/
theorem foldl_splitStep_markers (ks : List (String × PyVal × PyVal)) :
    ∀ acc : List PyVal × List (String × PyVal),
      (ks.map Prod.fst).Nodup →
      (∀ p ∈ acc.2, p.1 ∉ ks.map Prod.fst) →
      (ks.map (fun k => PyVal.slice (.str k.1) k.2.1 k.2.2)).foldl
          SquareFunction.splitStep acc =
        (acc.1, acc.2 ++ ks.map (fun k => (k.1, k.2.1))) := by
  induction ks with
  | nil => intro acc _ _; simp
  | cons k kt ih =>
    intro acc hnd hdisj
    rw [List.map_cons, List.foldl_cons,
      show SquareFunction.splitStep acc (PyVal.slice (.str k.1) k.2.1 k.2.2) =
          (acc.1, acc.2 ++ [(k.1, k.2.1)]) by
        simp only [SquareFunction.splitStep, PyVal.kwargPair]
        rw [dictAssign_notmem]
        intro p hp he
        exact hdisj p hp (by rw [List.map_cons, he]; exact List.mem_cons_self _ _)]
    rw [List.map_cons, List.nodup_cons] at hnd
    rw [ih (acc.1, acc.2 ++ [(k.1, k.2.1)]) hnd.2 ?_]
    · simp
    · intro p hp
      rcases List.mem_append.mp hp with h1 | h1
      · have h2 := hdisj p h1
        rw [List.map_cons] at h2
        exact fun hm => h2 (List.mem_cons_of_mem _ hm)
      · have h2 : p = (k.1, k.2.1) := List.mem_singleton.mp h1
        rw [h2]
        exact hnd.1

/-- Every keyword marker is a valid kwarg. -/
theorem markers_all_valid (ks : List (String × PyVal × PyVal)) :
    (ks.map (fun k => PyVal.slice (.str k.1) k.2.1 k.2.2)).all
      SquareFunction.is_valid_kwarg = true := by
  rw [List.all_eq_true]
  intro x hx
  rw [List.mem_map] at hx
  obtain ⟨k, _, rfl⟩ := hx
  rfl

/-- The keyword names of a marker list are the marker names. -/
theorem kwNames_markers (ks : List (String × PyVal × PyVal)) :
    kwNames (ks.map (fun k => PyVal.slice (.str k.1) k.2.1 k.2.2)) =
      ks.map Prod.fst := by
  induction ks with
  | nil => rfl
  | cons k kt ih =>
    rw [List.map_cons, List.map_cons,
      kwNames_cons_some (show PyVal.kwargPair (PyVal.slice (.str k.1) k.2.1 k.2.2) =
        some (k.1, k.2.1) from rfl), ih]

/-- `dropWhile p` over a prefix entirely satisfying `p` skips it. -/
theorem dropWhile_append_of_all {α : Type} (p : α → Bool) (l1 l2 : List α)
    (h : l1.all p = true) : (l1 ++ l2).dropWhile p = l2.dropWhile p := by
  induction l1 with
  | nil => simp
  | cons a t ih =>
    rw [List.all_cons, Bool.and_eq_true] at h
    rw [List.cons_append, List.dropWhile_cons_of_pos h.1]
    exact ih h.2

/-- A list of valid kwargs stays all-valid after dropping leading
non-kwargs. -/
theorem dropWhile_invalid_of_all_valid (L : List PyVal)
    (h : L.all SquareFunction.is_valid_kwarg = true) :
    ((L.dropWhile (fun v => !SquareFunction.is_valid_kwarg v)).all
      SquareFunction.is_valid_kwarg) = true := by
  cases L with
  | nil => rfl
  | cons a t =>
    rw [List.all_cons, Bool.and_eq_true] at h
    rw [List.dropWhile_cons_of_neg (by simp [h.1]), List.all_cons,
      Bool.and_eq_true]
    exact ⟨h.1, h.2⟩

/-- Positional values followed by distinct-name keyword markers form a
well-formed argument tuple. -/
theorem wellFormed_pos_markers (pos : List PyVal)
    (ks : List (String × PyVal × PyVal))
    (hpos : pos.all (fun v => !SquareFunction.is_valid_kwarg v) = true)
    (hnd : (ks.map Prod.fst).Nodup) :
    wellFormedArgs (pos ++ ks.map (fun k => PyVal.slice (.str k.1) k.2.1 k.2.2)) := by
  constructor
  · rw [dropWhile_append_of_all _ pos _ hpos]
    exact dropWhile_invalid_of_all_valid _ (markers_all_valid ks)
  · rw [kwNames_append, kwNames_of_all_invalid pos hpos, kwNames_markers,
      List.nil_append]
    exact hnd

/-- C2: for every wrapped function and every bracket argument tuple of
positional values followed by keyword markers with pairwise-distinct names,
subscription invokes the wrapped function exactly once, with the positional
values as positional arguments in order and each marker `name: value` as the
keyword argument `name=value` — the same call a direct invocation would
make. -/
theorem squareFunction_getitem_call_equiv (f : CallRecord → PyVal) (nv : Bool)
    (pos : List PyVal) (ks : List (String × PyVal × PyVal))
    (hpos : pos.all (fun v => !SquareFunction.is_valid_kwarg v) = true)
    (hnd : (ks.map Prod.fst).Nodup) :
    SquareFunction.getitem f nv
        (.tuple (pos ++ ks.map (fun k => PyVal.slice (.str k.1) k.2.1 k.2.2))) =
      ([⟨pos, ks.map (fun k => (k.1, k.2.1))⟩], .ok PyVal.noneVal) := by
  have hsplit : SquareFunction.split
      (pos ++ ks.map (fun k => PyVal.slice (.str k.1) k.2.1 k.2.2)) =
      (pos, ks.map (fun k => (k.1, k.2.1))) := by
    unfold SquareFunction.split
    rw [List.foldl_append, foldl_splitStep_pos pos ([], []) hpos,
      foldl_splitStep_markers ks ([] ++ pos, ([], ([] : List (String × PyVal))).2)
        hnd (by intro p hp; simp at hp)]
    simp
  have hinv : SquareFunction.invoke f
      (pos ++ ks.map (fun k => PyVal.slice (.str k.1) k.2.1 k.2.2)) =
      ([⟨pos, ks.map (fun k => (k.1, k.2.1))⟩], .ok PyVal.noneVal) := by
    unfold SquareFunction.invoke
    rw [hsplit]
  have hok : SquareFunction.verify
      (pos ++ ks.map (fun k => PyVal.slice (.str k.1) k.2.1 k.2.2)) = .ok () :=
    (verify_ok_iff _).mpr (wellFormed_pos_markers pos ks hpos hnd)
  cases nv with
  | true =>
    simp only [SquareFunction.getitem, tuplefy]
    exact hinv
  | false =>
    simp only [SquareFunction.getitem, tuplefy, Bool.false_eq_true, if_false, hok]
    exact hinv

/-- Witness for C2: `f[10, "c":30]` performs the call `f(10, c=30)`. -/
theorem squareFunction_getitem_call_equiv_witness :
    SquareFunction.getitem (fun _ => PyVal.noneVal) false
        (.tuple ([PyVal.int 10] ++
          [("c", PyVal.int 30, PyVal.noneVal)].map
            (fun k => PyVal.slice (.str k.1) k.2.1 k.2.2))) =
      ([⟨[PyVal.int 10], [("c", PyVal.int 30, PyVal.noneVal)].map
          (fun k => (k.1, k.2.1))⟩], .ok PyVal.noneVal) :=
  squareFunction_getitem_call_equiv (fun _ => PyVal.noneVal) false
    [PyVal.int 10] [("c", PyVal.int 30, PyVal.noneVal)] (by decide) (by decide)
